import Mathlib

/-!
Verification development for the weather ETL crawler (`etl/main.py`).

The script is a single-file batch job: it loads a consolidated CSV keyed by
(`Tinh_thanh`, `Datetime`), computes a per-region resume date, crawls bounded
date windows against the archive API with a retry/backoff loop
(`fetch_block`), merges fetched fragments into the consolidated frame
(drop_duplicates / dropna / sort / column reorder) and persists it, with a
hard-stop circuit breaker (`RATE_LIMIT_HARD`) that persists all progress
before aborting the run.

Modelling conventions:
- calendar dates are `Nat` days since the epoch `date(2000, 1, 1)`;
- timestamps (the `Datetime` column) are `Nat` hours since that epoch, so the
  calendar date of a timestamp `t` is `t / 24` (mirroring `.dt.date()` /
  `.max().date()`); an unparseable stamp (`NaT` after `errors="coerce"`) is
  `none`;
- the metric cells of a row are abstracted into a single `Nat` tag: no code
  under scrutiny inspects them;
- region order inside a sort is the codepoint-lexicographic order on the
  region name, which is how pandas compares Python strings;
- sleeps are recorded as a list of waited durations (seconds) instead of
  elapsing; randomness (`random.randint(0, 60)`) is an oracle argument.
-/

/-- Codepoint-lexicographic strict order on character lists: the order pandas
uses when sorting a string column. -/
def charsLt : List Char → List Char → Bool
  | [], [] => false
  | [], _ :: _ => true
  | _ :: _, [] => false
  | a :: as, b :: bs => a.toNat < b.toNat || (a.toNat = b.toNat && charsLt as bs)

/-- Strict order on strings, by codepoints. -/
def strLtB (a b : String) : Bool := charsLt a.data b.data

/-- One row of the consolidated frame: the region name (`Tinh_thanh`), the
parsed `Datetime` stamp (hours since the 2000-01-01 epoch; `none` is `NaT`)
and an abstract tag standing for all remaining metric cells. -/
structure Row where
  tinh : String
  dt : Option Nat
  cells : Nat
deriving DecidableEq

/-- The dedup key of a row: the `subset=["Tinh_thanh", "Datetime"]` pair. -/
def keyOf (r : Row) : String × Option Nat := (r.tinh, r.dt)

/-- Worker for `drop_duplicates`: keep a row iff its key was not seen yet. -/
def dedupGo (seen : List (String × Option Nat)) : List Row → List Row
  | [] => []
  | r :: rs =>
    if keyOf r ∈ seen then dedupGo seen rs
    else r :: dedupGo (keyOf r :: seen) rs

/-- `df.drop_duplicates(subset=["Tinh_thanh", "Datetime"])`: keep the first
row of each (region, timestamp) key (pandas default `keep="first"`). -/
def dropDuplicates (rows : List Row) : List Row := dedupGo [] rows

/-- `df.dropna(subset=["Datetime"])`: discard rows whose stamp is `NaT`. -/
def dropnaDt (rows : List Row) : List Row :=
  rows.filter (fun r => r.dt.isSome)

/-- Order on parsed stamps; `none` (`NaT`) sorts last, as pandas places
missing values last by default. The clean pipeline only sorts after
`dropna`, so the `none` cases never actually arise there. -/
def optLe : Option Nat → Option Nat → Bool
  | none, none => true
  | some _, none => true
  | none, some _ => false
  | some a, some b => a ≤ b

/-- The `sort_values(["Tinh_thanh", "Datetime"])` comparison: by region name
first, then by timestamp. -/
def rowLe (a b : Row) : Bool :=
  strLtB a.tinh b.tinh || (a.tinh == b.tinh && optLe a.dt b.dt)

/-- Propositional form of `rowLe`, for the sorting lemmas. -/
def RowLe (a b : Row) : Prop := rowLe a b = true

instance : DecidableRel RowLe :=
  fun a b => inferInstanceAs (Decidable (rowLe a b = true))

/-- `df.sort_values(["Tinh_thanh", "Datetime"])`: produce a permutation of
the rows that is sorted by (region, timestamp). -/
def sortRows (rows : List Row) : List Row := List.insertionSort RowLe rows

/-- The cleanup applied before every persist (lines 360-363 on the hard-stop
path and 397-400 on the normal path, identical code): `drop_duplicates` on
the composite key, re-coerce `Datetime` (a no-op here: stamps are already
parsed), `dropna` on `Datetime`, then sort by (region, timestamp). -/
def cleanDf (rows : List Row) : List Row :=
  sortRows (dropnaDt (dropDuplicates rows))

/-- The two designated code columns placed right after the region column. -/
def special_cols : List String := ["Mã thời tiết", "Mã thời tiết ngày"]

/-- The column reorder applied after every merge (lines 229-243, 366-379 and
403-416): `Tinh_thanh` first, then each special column that is present, then
every remaining column, then `Datetime` last. -/
def reorderCols (cols : List String) : List String :=
  ("Tinh_thanh" :: special_cols.filter (fun sc => decide (sc ∈ cols)))
    ++ cols.filter (fun c =>
        !(c == "Tinh_thanh" || c == "Datetime" || decide (c ∈ special_cols)))
    ++ ["Datetime"]

/-- The epoch start `date(2000, 1, 1)` (`start_all`), day 0 of the model. -/
def start_all : Nat := 0

/-- Calendar date of an hour stamp: `.dt.date()` / `.max().date()`. -/
def dateOfTs (t : Nat) : Nat := t / 24

/-- Maximum of a list of stamps; only used on nonempty lists, mirroring
`df_tinh["Datetime"].max()`. -/
def natMax : List Nat → Nat
  | [] => 0
  | x :: xs => max x (natMax xs)

/-- Lines 301-314: the per-region resume date. If the loaded frame is
nonempty and mentions the region, filter to that region, coerce and drop
unparseable stamps; if rows remain, resume one day after the calendar date
of the latest stamp, otherwise from `start_all`. -/
def resumeStart (dfvn : List Row) (tinh : String) : Nat :=
  if dfvn ≠ [] ∧ tinh ∈ dfvn.map Row.tinh then
    let dts := (dfvn.filter (fun r => r.tinh == tinh)).filterMap Row.dt
    if dts = [] then start_all
    else dateOfTs (natMax dts) + 1
  else start_all

/-- Lines 327-344, the window `while` loop: starting at `cur`, emit blocks
`[cur, min (cur + 365) y]` and restart from the day after the block end,
until `cur` passes `y` (= yesterday). `fuel` bounds the iteration count;
`y + 1 - cur` iterations always suffice. -/
def windowsGo (y : Nat) : Nat → Nat → List (Nat × Nat)
  | _, 0 => []
  | cur, fuel + 1 =>
    if cur ≤ y then
      (cur, min (cur + 365) y) :: windowsGo y (min (cur + 365) y + 1) fuel
    else []

/-- The sequence of fetch windows issued for one region when its crawl
starts at `cur` and yesterday is `y`. -/
def windows (cur y : Nat) : List (Nat × Nat) := windowsGo y cur (y + 1 - cur)

/-- Outcome of one attempt inside `fetch_block`: either `session.get` raised
(network/connection exception) or it returned an HTTP status with a payload
(the payload only matters on 200). -/
inductive Att (α : Type) where
  | exn
  | response (status : Nat) (payload : α)
deriving DecidableEq

/-- Result of `fetch_block`: the parsed frame (line 245), `None` for a
skipped window (line 263), or the raised `RuntimeError("RATE_LIMIT_HARD")`
(line 267). -/
inductive FetchRes (β : Type) where
  | success (frame : β)
  | noData
  | hardStop
deriving DecidableEq

/-- An attempt outcome the loop retries on: a connection exception, HTTP
429, or HTTP 500/502/503/504. -/
def isRetryable {α : Type} : Att α → Bool
  | .exn => true
  | .response s _ => s == 429 || s == 500 || s == 502 || s == 503 || s == 504

/-- Lines 181-267, the attempt loop of `fetch_block`, iterating over the
remaining attempt numbers (`range(1, max_attempts + 1)`). `oc n` is what
attempt `n` observes, `jit n` the `random.randint(0, 60)` jitter drawn on a
429 at attempt `n`, `base` the `base_wait_429` parameter. Returns the
result together with the list of sleeps performed, in order. Falling off
the loop raises `RATE_LIMIT_HARD`. On 200 the body parses the payload and
returns the reshaped frame (a malformed 200 payload, which would raise out
of `r.json()`, is not modelled). -/
def fetchLoop {α β : Type} (parse : α → β) (oc : Nat → Att α) (jit : Nat → Nat)
    (base : Nat) : List Nat → FetchRes β × List Nat
  | [] => (.hardStop, [])
  | n :: rest =>
    match oc n with
    | .exn =>
      let p := fetchLoop parse oc jit base rest
      (p.1, 10 * n :: p.2)
    | .response s pay =>
      if s = 200 then (.success (parse pay), [])
      else if s = 429 then
        let p := fetchLoop parse oc jit base rest
        (p.1, (base * n + jit n) :: p.2)
      else if s = 500 ∨ s = 502 ∨ s = 503 ∨ s = 504 then
        let p := fetchLoop parse oc jit base rest
        (p.1, 20 * n :: p.2)
      else (.noData, [])

/-- Default `max_attempts` of `fetch_block`. -/
def max_attempts : Nat := 6

/-- Default `base_wait_429` of `fetch_block`. -/
def base_wait_429 : Nat := 60

/-- `fetch_block` at its default parameters: attempts 1 through 6. -/
def fetch_block {α β : Type} (parse : α → β) (oc : Nat → Att α)
    (jit : Nat → Nat) : FetchRes β × List Nat :=
  fetchLoop parse oc jit base_wait_429 (List.range' 1 max_attempts)

/-- The controller state: the in-memory consolidated frame `df_vn` and the
content of the persisted artifact (`data.csv`). -/
structure CrawlState where
  dfvn : List Row
  disk : List Row
deriving DecidableEq

/-- How the main crawl loop ended: fell off the region loop, or aborted via
the `RATE_LIMIT_HARD` `RuntimeError`. -/
inductive CrawlOutcome where
  | completed
  | rateLimitHard
deriving DecidableEq

/-- The distinguished final messages of the script. -/
inductive FinalMsg where
  | rerunLater
  | completedOk
deriving DecidableEq

/-- Lines 428-436: the top-level handler prints the distinguished
"rerun later" banner on `RATE_LIMIT_HARD` and the completion banner
otherwise. -/
def scriptFinalMsg : CrawlOutcome → FinalMsg
  | .completed => .completedOk
  | .rateLimitHard => .rerunLater

/-- Process exit status. The top-level `except RuntimeError` (line 428)
catches the circuit-breaker exception, prints, and falls through; in both
branches control reaches the end of the module, so the interpreter exits
with status 0. -/
def scriptExitCode : CrawlOutcome → Nat
  | .completed => 0
  | .rateLimitHard => 0

/-- Lines 327-344 for one region: walk the windows in order, fetching each
(`f i` is the fetch result of the i-th window). A successful nonempty frame
is appended to `df_blocks`; `None` or an empty frame is skipped; a
`RATE_LIMIT_HARD` abort ends the walk. Returns the collected blocks and
whether the walk was aborted. -/
def runWindows (f : Nat → FetchRes (List Row)) :
    List (Nat × Nat) → Nat → List (List Row) × Bool
  | [], _ => ([], false)
  | _ :: ws, i =>
    match f i with
    | .hardStop => ([], true)
    | .noData => runWindows f ws (i + 1)
    | .success rows =>
      let p := runWindows f ws (i + 1)
      (if rows = [] then p.1 else rows :: p.1, p.2)

/-- Lines 301-426 for one region `tinh`: compute the resume date and skip
the region if it passes yesterday (`y`); otherwise walk the windows. On a
`RATE_LIMIT_HARD` abort (lines 346-383) merge whatever blocks were
collected, and — when the frame is nonempty — clean and persist it before
re-raising. On normal completion (lines 388-419) merge, clean and persist
only when at least one block was collected. The third component is the
concatenation of all collected blocks (instrumentation used to state the
no-loss property). -/
def crawlRegion (f : Nat → FetchRes (List Row)) (y : Nat) (tinh : String)
    (st : CrawlState) : CrawlState × Bool × List Row :=
  let start := resumeStart st.dfvn tinh
  if start > y then (st, false, [])
  else
    let bw := runWindows f (windows start y) 0
    let ghost := bw.1.flatten
    if bw.2 then
      let df1 := st.dfvn ++ bw.1.flatten
      if df1 = [] then (⟨df1, st.disk⟩, true, ghost)
      else (⟨cleanDf df1, cleanDf df1⟩, true, ghost)
    else
      if bw.1 = [] then (st, false, ghost)
      else
        let c := cleanDf (st.dfvn ++ bw.1.flatten)
        (⟨c, c⟩, false, ghost)

/-- Lines 293-426, the region loop: process the regions in order (`g i` is
the fetch oracle of the i-th region), aborting the whole loop as soon as a
region hard-stops. Returns the final state, how the loop ended, and the
concatenation of all collected blocks of the whole run (instrumentation). -/
def crawlAll (g : Nat → Nat → FetchRes (List Row)) (y : Nat) :
    List String → Nat → CrawlState → CrawlState × CrawlOutcome × List Row
  | [], _, st => (st, .completed, [])
  | t :: ts, i, st =>
    let step := crawlRegion (g i) y t st
    if step.2.1 then (step.1, .rateLimitHard, step.2.2)
    else
      let rec2 := crawlAll g y ts (i + 1) step.1
      (rec2.1, rec2.2.1, step.2.2 ++ rec2.2.2)

/-- One hourly row of a fetched payload after renaming: its derived calendar
date (`df_h["Date"]`, `none` when the stamp failed to parse) and an abstract
tag for the hourly cells (`Datetime`, `Tinh_thanh` and the metric values). -/
structure HRow where
  date : Option Nat
  hvals : Nat
deriving DecidableEq

/-- One daily row of a fetched payload after renaming: its calendar date and
an abstract tag for the daily aggregate cells. -/
structure DRow where
  date : Option Nat
  dvals : Nat
deriving DecidableEq

/-- Line 221, `df_h.merge(df_d, on="Date", how="left")`: every hourly row is
paired with the daily values of each daily row sharing its date, or with
`none` when no daily row matches; a missing (`NaT`) key never matches,
as pandas joins never equate missing keys. -/
def leftMergeOnDate (hs : List HRow) (ds : List DRow) :
    List (HRow × Option Nat) :=
  hs.flatMap (fun h =>
    match ds.filter (fun d2 => d2.date.isSome && d2.date == h.date) with
    | [] => [(h, none)]
    | ms => ms.map (fun d2 => (h, some d2.dvals)))

/-- Lines 221-222: the joined rows with the join-key column dropped — only
the hourly cells and the inherited daily cells remain. -/
def reshapeJoin (hs : List HRow) (ds : List DRow) : List (Nat × Option Nat) :=
  (leftMergeOnDate hs ds).map (fun p => (p.1.hvals, p.2))

/-- `df.drop(columns=[c])`. -/
def dropColumn (c : String) (cols : List String) : List String :=
  cols.filter (fun x => !(x == c))

/-- The column list produced by the 200-OK branch of `fetch_block`: the
left-merge keeps a single `Date` column, line 222 drops it, then the
reorder of lines 229-243 runs. `hcols` are the columns of `df_h` (which
include `Date`), `dcols` those of `df_d` besides `Date`. -/
def reshapeCols (hcols dcols : List String) : List String :=
  reorderCols (dropColumn "Date" (hcols ++ dcols))

/-! Concrete scenarios used to evaluate the development on closed inputs. -/

/-- Attempt oracle: 429 on attempts 1 and 2, then 200 with payload 7. -/
def ocBackoff : Nat → Att Nat :=
  fun n => if n ≤ 2 then .response 429 0 else .response 200 7

/-- Constant jitter oracle. -/
def jitFive : Nat → Nat := fun _ => 5

/-- Attempt oracle: HTTP 403 on the first attempt. -/
def ocSoft : Nat → Att Nat :=
  fun n => if n = 1 then .response 403 0 else .response 429 0

/-- Attempt oracle: HTTP 429 on every attempt. -/
def ocHard : Nat → Att Nat := fun _ => .response 429 0

/-- A sample parseable observation row. -/
def rowA : Row := ⟨"A", some 24, 9⟩

/-- Region oracle: the first region fetches one row, the second hard-stops. -/
def gOne : Nat → Nat → FetchRes (List Row) :=
  fun i _ => if i = 0 then .success [rowA] else .hardStop

/-- Region oracle: every fetch hard-stops. -/
def gStop : Nat → Nat → FetchRes (List Row) := fun _ _ => .hardStop

/-- Window oracle: every fetch returns no data. -/
def fNone : Nat → FetchRes (List Row) := fun _ => .noData

/-- Twenty-four hourly rows sharing calendar day 5. -/
def hs24 : List HRow := (List.range 24).map (fun i => ⟨some 5, i⟩)

/-- A one-row consolidated frame for the idempotent-resume scenario. -/
def dfOld : List Row := [⟨"A", some 24, 1⟩]

/-- Freshly fetched rows overlapping `dfOld` on (region A, stamp 24). -/
def dfNew : List Row := [⟨"A", some 24, 2⟩, ⟨"A", some 48, 3⟩]

/-! ### Order lemmas for the sort comparison -/

theorem charsLt_trans : ∀ a b c, charsLt a b = true → charsLt b c = true →
    charsLt a c = true
  | [], [], _, h, _ => by simp [charsLt] at h
  | [], _ :: _, [], _, h => by simp [charsLt] at h
  | [], _ :: _, _ :: _, _, _ => by simp [charsLt]
  | _ :: _, [], _, h, _ => by simp [charsLt] at h
  | _ :: _, _ :: _, [], _, h => by simp [charsLt] at h
  | a :: as, b :: bs, c :: cs, h1, h2 => by
    simp only [charsLt, Bool.or_eq_true, Bool.and_eq_true, decide_eq_true_eq] at h1 h2 ⊢
    rcases h1 with h1 | ⟨h1e, h1r⟩ <;> rcases h2 with h2 | ⟨h2e, h2r⟩
    · exact Or.inl (Nat.lt_trans h1 h2)
    · exact Or.inl (h2e ▸ h1)
    · exact Or.inl (h1e ▸ h2)
    · exact Or.inr ⟨h1e.trans h2e, charsLt_trans as bs cs h1r h2r⟩

theorem charsLt_trichotomy : ∀ a b, charsLt a b = true ∨ charsLt b a = true ∨ a = b
  | [], [] => by simp [charsLt]
  | [], _ :: _ => by simp [charsLt]
  | _ :: _, [] => by simp [charsLt]
  | a :: as, b :: bs => by
    rcases Nat.lt_trichotomy a.toNat b.toNat with h | h | h
    · exact Or.inl (by simp [charsLt, h])
    · rcases charsLt_trichotomy as bs with h2 | h2 | h2
      · exact Or.inl (by simp [charsLt, h, h2])
      · exact Or.inr (Or.inl (by simp [charsLt, h.symm, h2]))
      · refine Or.inr (Or.inr ?_)
        have hab : a = b := by
          rw [← Char.ofNat_toNat a, ← Char.ofNat_toNat b, h]
        simp [hab, h2]
    · exact Or.inr (Or.inl (by simp [charsLt, h]))

theorem strLtB_trans {a b c : String} (h1 : strLtB a b = true)
    (h2 : strLtB b c = true) : strLtB a c = true :=
  charsLt_trans _ _ _ h1 h2

theorem strLtB_trichotomy (a b : String) :
    strLtB a b = true ∨ strLtB b a = true ∨ a = b := by
  rcases charsLt_trichotomy a.data b.data with h | h | h
  · exact Or.inl h
  · exact Or.inr (Or.inl h)
  · exact Or.inr (Or.inr (String.ext h))

theorem optLe_trans : ∀ {a b c : Option Nat}, optLe a b = true →
    optLe b c = true → optLe a c = true := by
  intro a b c h1 h2
  cases a <;> cases b <;> cases c <;> simp_all [optLe]
  omega

theorem optLe_total : ∀ a b : Option Nat, optLe a b = true ∨ optLe b a = true
  | none, none => Or.inl rfl
  | none, some _ => Or.inr rfl
  | some _, none => Or.inl rfl
  | some x, some y => by
    simp only [optLe, decide_eq_true_eq]
    omega

instance : IsTrans Row RowLe := by
  constructor
  intro a b c h1 h2
  simp only [RowLe, rowLe, Bool.or_eq_true, Bool.and_eq_true, beq_iff_eq] at h1 h2 ⊢
  rcases h1 with h1 | ⟨h1e, h1r⟩ <;> rcases h2 with h2 | ⟨h2e, h2r⟩
  · exact Or.inl (strLtB_trans h1 h2)
  · exact Or.inl (h2e ▸ h1)
  · exact Or.inl (h1e ▸ h2)
  · exact Or.inr ⟨h1e.trans h2e, optLe_trans h1r h2r⟩

instance : IsTotal Row RowLe := by
  constructor
  intro a b
  simp only [RowLe, rowLe, Bool.or_eq_true, Bool.and_eq_true, beq_iff_eq]
  rcases strLtB_trichotomy a.tinh b.tinh with h | h | h
  · exact Or.inl (Or.inl h)
  · exact Or.inr (Or.inl h)
  · rcases optLe_total a.dt b.dt with h2 | h2
    · exact Or.inl (Or.inr ⟨h, h2⟩)
    · exact Or.inr (Or.inr ⟨h.symm, h2⟩)

/-! ### Deduplication lemmas -/

theorem dedupGo_subset {seen : List (String × Option Nat)} :
    ∀ {rows : List Row} {r : Row}, r ∈ dedupGo seen rows → r ∈ rows := by
  intro rows
  induction rows generalizing seen with
  | nil => intro r h; simp [dedupGo] at h
  | cons x rs ih =>
    intro r h
    by_cases hx : keyOf x ∈ seen
    · simp only [dedupGo, if_pos hx] at h
      exact List.mem_cons_of_mem _ (ih h)
    · simp only [dedupGo, if_neg hx, List.mem_cons] at h
      rcases h with h | h
      · exact h ▸ List.mem_cons_self _ _
      · exact List.mem_cons_of_mem _ (ih h)

theorem dedupGo_not_seen {seen : List (String × Option Nat)} :
    ∀ {rows : List Row} {r : Row}, r ∈ dedupGo seen rows → keyOf r ∉ seen := by
  intro rows
  induction rows generalizing seen with
  | nil => intro r h; simp [dedupGo] at h
  | cons x rs ih =>
    intro r h
    by_cases hx : keyOf x ∈ seen
    · simp only [dedupGo, if_pos hx] at h
      exact ih h
    · simp only [dedupGo, if_neg hx, List.mem_cons] at h
      rcases h with h | h
      · exact h ▸ hx
      · intro hc
        exact (ih h) (List.mem_cons_of_mem _ hc)

theorem dedupGo_pairwise (seen : List (String × Option Nat)) :
    ∀ rows : List Row,
      (dedupGo seen rows).Pairwise (fun a b => keyOf a ≠ keyOf b) := by
  intro rows
  induction rows generalizing seen with
  | nil => simp [dedupGo]
  | cons x rs ih =>
    by_cases hx : keyOf x ∈ seen
    · simpa only [dedupGo, if_pos hx] using ih seen
    · simp only [dedupGo, if_neg hx, List.pairwise_cons]
      refine ⟨fun b hb => ?_, ih _⟩
      intro hc
      exact (dedupGo_not_seen hb) (hc ▸ List.mem_cons_self _ _)

theorem dedupGo_key_covered {seen : List (String × Option Nat)} :
    ∀ {rows : List Row} {r : Row}, r ∈ rows → keyOf r ∉ seen →
      ∃ r2 ∈ dedupGo seen rows, keyOf r2 = keyOf r := by
  intro rows
  induction rows generalizing seen with
  | nil => intro r h; simp at h
  | cons x rs ih =>
    intro r hmem hns
    by_cases hx : keyOf x ∈ seen
    · simp only [dedupGo, if_pos hx]
      rcases List.mem_cons.1 hmem with h | h
      · exact absurd (h ▸ hns) (fun hc => hc hx)
      · exact ih h hns
    · simp only [dedupGo, if_neg hx]
      rcases List.mem_cons.1 hmem with h | h
      · exact ⟨x, List.mem_cons_self _ _, by rw [h]⟩
      · by_cases hk : keyOf r = keyOf x
        · exact ⟨x, List.mem_cons_self _ _, hk.symm⟩
        · have hns2 : keyOf r ∉ keyOf x :: seen := by
            intro hc
            rcases List.mem_cons.1 hc with hc1 | hc2
            · exact hk hc1
            · exact hns hc2
          obtain ⟨r2, hr2, hk2⟩ := ih h hns2
          exact ⟨r2, List.mem_cons_of_mem _ hr2, hk2⟩

theorem dedupGo_mem_of_first {seen : List (String × Option Nat)} :
    ∀ {l1 : List Row} {r : Row} {l2 : List Row},
      (∀ x ∈ l1, keyOf x ≠ keyOf r) → keyOf r ∉ seen →
      r ∈ dedupGo seen (l1 ++ r :: l2) := by
  intro l1
  induction l1 generalizing seen with
  | nil =>
    intro r l2 _ hns
    simp only [List.nil_append, dedupGo, if_neg hns]
    exact List.mem_cons_self _ _
  | cons x l1 ih =>
    intro r l2 hfirst hns
    have hxr : keyOf x ≠ keyOf r := hfirst x (List.mem_cons_self _ _)
    by_cases hx : keyOf x ∈ seen
    · simp only [List.cons_append, dedupGo, if_pos hx]
      exact ih (fun z hz => hfirst z (List.mem_cons_of_mem _ hz)) hns
    · simp only [List.cons_append, dedupGo, if_neg hx]
      refine List.mem_cons_of_mem _ ?_
      refine ih (fun z hz => hfirst z (List.mem_cons_of_mem _ hz)) ?_
      simp only [List.mem_cons, not_or]
      exact ⟨fun hc => hxr hc.symm, hns⟩

/-! ### Clean-pipeline lemmas -/

theorem mem_sortRows {r : Row} {l : List Row} : r ∈ sortRows l ↔ r ∈ l :=
  (List.perm_insertionSort RowLe l).mem_iff

theorem sortRows_sorted (l : List Row) : (sortRows l).Sorted RowLe :=
  List.sorted_insertionSort RowLe l

theorem cleanDf_subset {r : Row} {rows : List Row} (h : r ∈ cleanDf rows) :
    r ∈ rows := by
  have h1 : r ∈ dropnaDt (dropDuplicates rows) := mem_sortRows.1 h
  have h2 : r ∈ dropDuplicates rows := (List.mem_filter.1 h1).1
  exact dedupGo_subset h2

theorem cleanDf_isSome {r : Row} {rows : List Row} (h : r ∈ cleanDf rows) :
    r.dt.isSome := by
  have h1 : r ∈ dropnaDt (dropDuplicates rows) := mem_sortRows.1 h
  exact (List.mem_filter.1 h1).2

theorem cleanDf_pairwiseKeys (rows : List Row) :
    (cleanDf rows).Pairwise (fun a b => keyOf a ≠ keyOf b) := by
  have h1 : (dropDuplicates rows).Pairwise (fun a b => keyOf a ≠ keyOf b) :=
    dedupGo_pairwise [] rows
  have h2 : (dropnaDt (dropDuplicates rows)).Pairwise
      (fun a b => keyOf a ≠ keyOf b) := h1.filter _
  exact ((List.perm_insertionSort RowLe _).pairwise_iff
    (fun h hc => h hc.symm)).2 h2

theorem cleanDf_key_covered {r : Row} {rows : List Row} (hmem : r ∈ rows)
    (hsome : r.dt.isSome) : ∃ r2 ∈ cleanDf rows, keyOf r2 = keyOf r := by
  obtain ⟨r2, hr2, hk⟩ :=
    dedupGo_key_covered hmem (List.not_mem_nil _)
  have hdt : r2.dt = r.dt := congrArg Prod.snd hk
  refine ⟨r2, ?_, hk⟩
  refine mem_sortRows.2 ?_
  exact List.mem_filter.2 ⟨hr2, by rw [hdt]; exact hsome⟩

theorem cleanDf_mem_of_first {l1 : List Row} {r : Row} {l2 : List Row}
    (hfirst : ∀ x ∈ l1, keyOf x ≠ keyOf r) (hsome : r.dt.isSome) :
    r ∈ cleanDf (l1 ++ r :: l2) := by
  have h1 : r ∈ dropDuplicates (l1 ++ r :: l2) :=
    dedupGo_mem_of_first hfirst (List.not_mem_nil _)
  exact mem_sortRows.2 (List.mem_filter.2 ⟨h1, hsome⟩)

theorem cleanDf_unique {r r2 : Row} {rows : List Row} (h1 : r ∈ cleanDf rows)
    (h2 : r2 ∈ cleanDf rows) (hk : keyOf r2 = keyOf r) : r2 = r := by
  by_contra hne
  have hsym : Symmetric (fun a b : Row => keyOf a ≠ keyOf b) :=
    fun _ _ h hc => h hc.symm
  exact List.Pairwise.forall hsym (cleanDf_pairwiseKeys rows) h2 h1 hne hk

theorem cleanDf_sorted (rows : List Row) : (cleanDf rows).Sorted RowLe :=
  sortRows_sorted _

/-! ### Window-loop lemmas -/

theorem windowsGo_mem {y : Nat} : ∀ {fuel cur s e : Nat},
    (s, e) ∈ windowsGo y cur fuel →
    cur ≤ s ∧ s ≤ e ∧ e ≤ y ∧ e - s ≤ 365 := by
  intro fuel
  induction fuel with
  | zero => intro cur s e h; simp [windowsGo] at h
  | succ fuel ih =>
    intro cur s e h
    by_cases hc : cur ≤ y
    · simp only [windowsGo, if_pos hc, List.mem_cons] at h
      rcases h with h | h
      · have hs : s = cur := congrArg Prod.fst h
        have he : e = min (cur + 365) y := congrArg Prod.snd h
        omega
      · have := ih h
        omega
    · simp only [windowsGo, if_neg hc] at h
      exact absurd h (List.not_mem_nil _)

theorem windowsGo_head {y cur fuel : Nat} (hf : 0 < fuel) (hc : cur ≤ y) :
    (windowsGo y cur fuel).head? = some (cur, min (cur + 365) y) := by
  cases fuel with
  | zero => omega
  | succ fuel => simp [windowsGo, if_pos hc]

theorem windowsGo_nil {y cur fuel : Nat} (h : y < cur ∨ fuel = 0) :
    windowsGo y cur fuel = [] := by
  cases fuel with
  | zero => rfl
  | succ fuel =>
    rcases h with h | h
    · simp [windowsGo]; omega
    · omega

theorem windowsGo_chain {y : Nat} : ∀ fuel cur,
    (windowsGo y cur fuel).Chain' (fun w1 w2 => w2.1 = w1.2 + 1) := by
  intro fuel
  induction fuel with
  | zero => intro cur; simp [windowsGo]
  | succ fuel ih =>
    intro cur
    by_cases hc : cur ≤ y
    · simp only [windowsGo, if_pos hc]
      refine List.chain'_cons'.2 ⟨?_, ih _⟩
      intro w hw
      by_cases hc2 : min (cur + 365) y + 1 ≤ y
      · by_cases hf : 0 < fuel
        · rw [windowsGo_head hf hc2] at hw
          simp only [Option.mem_def, Option.some.injEq] at hw
          rw [← hw]
        · rw [windowsGo_nil (Or.inr (by omega))] at hw
          simp at hw
      · rw [windowsGo_nil (Or.inl (by omega))] at hw
        simp at hw
    · simp [windowsGo, if_neg hc]

theorem windowsGo_cover {y : Nat} : ∀ {fuel cur : Nat},
    y + 1 - cur ≤ fuel → ∀ d : Nat,
    (∃ w ∈ windowsGo y cur fuel, w.1 ≤ d ∧ d ≤ w.2) ↔ (cur ≤ d ∧ d ≤ y) := by
  intro fuel
  induction fuel with
  | zero =>
    intro cur hf d
    simp only [windowsGo, List.not_mem_nil, false_and, exists_false, false_iff]
    omega
  | succ fuel ih =>
    intro cur hf d
    by_cases hc : cur ≤ y
    · simp only [windowsGo, if_pos hc, List.mem_cons]
      have hrec := @ih (min (cur + 365) y + 1) (by omega) d
      constructor
      · rintro ⟨w, hw | hw, hd1, hd2⟩
        · have h1 : w.1 = cur := by rw [hw]
          have h2 : w.2 = min (cur + 365) y := by rw [hw]
          omega
        · have := hrec.1 ⟨w, hw, hd1, hd2⟩
          omega
      · rintro ⟨hd1, hd2⟩
        by_cases hd3 : d ≤ min (cur + 365) y
        · exact ⟨(cur, min (cur + 365) y), Or.inl rfl, hd1, hd3⟩
        · obtain ⟨w, hw, hb⟩ := hrec.2 (by omega)
          exact ⟨w, Or.inr hw, hb⟩
    · simp only [windowsGo, if_neg hc, List.not_mem_nil, false_and,
        exists_false, false_iff]
      omega

theorem windowsGo_disjoint {y : Nat} : ∀ fuel cur,
    (windowsGo y cur fuel).Pairwise (fun w1 w2 => w1.2 < w2.1) := by
  intro fuel
  induction fuel with
  | zero => intro cur; simp [windowsGo]
  | succ fuel ih =>
    intro cur
    by_cases hc : cur ≤ y
    · simp only [windowsGo, if_pos hc, List.pairwise_cons]
      refine ⟨?_, ih _⟩
      intro w hw
      obtain ⟨w1, w2⟩ := w
      have := windowsGo_mem hw
      omega
    · simp [windowsGo, if_neg hc]

theorem windows_mem {cur y s e : Nat} (h : (s, e) ∈ windows cur y) :
    cur ≤ s ∧ s ≤ e ∧ e ≤ y ∧ e - s ≤ 365 :=
  windowsGo_mem h

theorem windows_chain (cur y : Nat) :
    (windows cur y).Chain' (fun w1 w2 => w2.1 = w1.2 + 1) :=
  windowsGo_chain _ _

theorem windows_cover (cur y : Nat) (d : Nat) :
    (∃ w ∈ windows cur y, w.1 ≤ d ∧ d ≤ w.2) ↔ (cur ≤ d ∧ d ≤ y) :=
  windowsGo_cover (Nat.le_refl _) d

theorem windows_disjoint (cur y : Nat) :
    (windows cur y).Pairwise (fun w1 w2 => w1.2 < w2.1) :=
  windowsGo_disjoint _ _

theorem windows_nil {cur y : Nat} (h : y < cur) : windows cur y = [] :=
  windowsGo_nil (Or.inl h)

theorem windows_head {cur y : Nat} (h : cur ≤ y) :
    (windows cur y).head? = some (cur, min (cur + 365) y) := by
  rw [windows]
  exact windowsGo_head (by omega) h

/-! ### Fetch-loop lemmas -/

theorem fetchLoop_retryable_step {α β : Type} {parse : α → β} {oc : Nat → Att α}
    {jit : Nat → Nat} {base n : Nat} {rest : List Nat}
    (h : isRetryable (oc n) = true) :
    (fetchLoop parse oc jit base (n :: rest)).1 =
      (fetchLoop parse oc jit base rest).1 := by
  match hoc : oc n with
  | .exn => simp [fetchLoop, hoc]
  | .response s pay =>
    rw [hoc] at h
    simp only [isRetryable, Bool.or_eq_true, beq_iff_eq] at h
    rcases h with ((((h | h) | h) | h) | h) <;> subst h <;>
      simp [fetchLoop, hoc]

theorem fetchLoop_all_retryable {α β : Type} {parse : α → β} {oc : Nat → Att α}
    {jit : Nat → Nat} {base : Nat} :
    ∀ {l : List Nat}, (∀ n ∈ l, isRetryable (oc n) = true) →
      (fetchLoop parse oc jit base l).1 = .hardStop := by
  intro l
  induction l with
  | nil => intro _; rfl
  | cons n rest ih =>
    intro h
    rw [fetchLoop_retryable_step (h n (List.mem_cons_self _ _))]
    exact ih (fun m hm => h m (List.mem_cons_of_mem _ hm))

theorem fetchLoop_soft_fail {α β : Type} {parse : α → β} {oc : Nat → Att α}
    {jit : Nat → Nat} {base : Nat} {s : Nat} {pay : α} :
    ∀ {l1 : List Nat} {k : Nat} {l2 : List Nat},
      (∀ n ∈ l1, isRetryable (oc n) = true) →
      oc k = .response s pay →
      ¬ (s = 200 ∨ s = 429 ∨ s = 500 ∨ s = 502 ∨ s = 503 ∨ s = 504) →
      (fetchLoop parse oc jit base (l1 ++ k :: l2)).1 = .noData := by
  intro l1
  induction l1 with
  | nil =>
    intro k l2 _ hk hs
    simp only [List.nil_append]
    have h200 : ¬ s = 200 := fun hc => hs (Or.inl hc)
    have h429 : ¬ s = 429 := fun hc => hs (Or.inr (Or.inl hc))
    have h5xx : ¬ (s = 500 ∨ s = 502 ∨ s = 503 ∨ s = 504) := by
      intro hc
      exact hs (Or.inr (Or.inr hc))
    simp [fetchLoop, hk, h200, h429, h5xx]
  | cons n rest ih =>
    intro k l2 h1 hk hs
    rw [List.cons_append, fetchLoop_retryable_step (h1 n (List.mem_cons_self _ _))]
    exact ih (fun m hm => h1 m (List.mem_cons_of_mem _ hm)) hk hs

/-! ### Maximum and resume-date lemmas -/

theorem le_natMax {x : Nat} : ∀ {l : List Nat}, x ∈ l → x ≤ natMax l := by
  intro l
  induction l with
  | nil => intro h; simp at h
  | cons a as ih =>
    intro h
    rcases List.mem_cons.1 h with h | h
    · simp only [natMax]; omega
    · have := ih h
      simp only [natMax]
      omega

theorem natMax_mem : ∀ {l : List Nat}, l ≠ [] → natMax l ∈ l := by
  intro l
  induction l with
  | nil => intro h; exact absurd rfl h
  | cons a as ih =>
    intro _
    by_cases ha : as = []
    · subst ha
      simp [natMax]
    · have hm := ih ha
      simp only [natMax]
      rcases Nat.le_total (natMax as) a with h | h
      · rw [Nat.max_eq_left h]
        exact List.mem_cons_self _ _
      · rw [Nat.max_eq_right h]
        exact List.mem_cons_of_mem _ hm

/-- The parseable stamps of one region inside the frame: the coerced,
NaT-dropped `Datetime` series of `df_tinh`. -/
def regionStamps (dfvn : List Row) (tinh : String) : List Nat :=
  (dfvn.filter (fun r => r.tinh == tinh)).filterMap Row.dt

theorem resumeStart_of_stamps {dfvn : List Row} {tinh : String}
    (h : regionStamps dfvn tinh ≠ []) :
    resumeStart dfvn tinh = dateOfTs (natMax (regionStamps dfvn tinh)) + 1 := by
  have hr : ∃ r ∈ dfvn, r.tinh = tinh := by
    obtain ⟨x, hx⟩ := List.exists_mem_of_ne_nil _ h
    obtain ⟨r, hr, _⟩ := List.mem_filterMap.1 hx
    exact ⟨r, (List.mem_filter.1 hr).1,
      by simpa using (List.mem_filter.1 hr).2⟩
  obtain ⟨r, hrm, hrt⟩ := hr
  have h1 : dfvn ≠ [] := fun hc => by simp [hc] at hrm
  have h2 : tinh ∈ dfvn.map Row.tinh :=
    List.mem_map.2 ⟨r, hrm, hrt⟩
  rw [resumeStart, if_pos ⟨h1, h2⟩]
  simp only [regionStamps] at h ⊢
  rw [if_neg h]

theorem resumeStart_of_no_stamps {dfvn : List Row} {tinh : String}
    (h : regionStamps dfvn tinh = []) : resumeStart dfvn tinh = start_all := by
  rw [resumeStart]
  by_cases hc : dfvn ≠ [] ∧ tinh ∈ dfvn.map Row.tinh
  · rw [if_pos hc]
    simp only [regionStamps] at h
    rw [if_pos h]
  · rw [if_neg hc]

/-! ### Controller lemmas -/

theorem crawlRegion_spec (f : Nat → FetchRes (List Row)) (y : Nat) (t : String)
    (st : CrawlState) :
    (∃ b, crawlRegion f y t st = (st, b, []) ∧ (b = true → st.dfvn = []))
    ∨ ∃ gh b, crawlRegion f y t st =
        (⟨cleanDf (st.dfvn ++ gh), cleanDf (st.dfvn ++ gh)⟩, b, gh) := by
  rw [crawlRegion]
  by_cases h1 : resumeStart st.dfvn t > y
  · rw [if_pos h1]
    exact Or.inl ⟨false, rfl, by simp⟩
  · rw [if_neg h1]
    simp only
    generalize runWindows f (windows (resumeStart st.dfvn t) y) 0 = bw
    obtain ⟨blocks, stopped⟩ := bw
    cases stopped with
    | true =>
      simp only [if_pos rfl]
      by_cases h2 : st.dfvn ++ blocks.flatten = []
      · rw [if_pos h2]
        rcases List.append_eq_nil.1 h2 with ⟨hd, hf⟩
        refine Or.inl ⟨true, ?_, fun _ => hd⟩
        rw [hf, hd]
        obtain ⟨d1, d2⟩ := st
        simp_all
      · rw [if_neg h2]
        exact Or.inr ⟨blocks.flatten, true, rfl⟩
    | false =>
      simp only [Bool.false_eq_true, if_neg Bool.false_ne_true]
      by_cases h2 : blocks = []
      · rw [if_pos h2]
        exact Or.inl ⟨false, by rw [h2]; rfl, by simp⟩
      · rw [if_neg h2]
        exact Or.inr ⟨blocks.flatten, false, rfl⟩

theorem cleanDf_append_strong {dfvn gh : List Row}
    (hp : (dfvn ++ gh).Pairwise (fun a b => keyOf a ≠ keyOf b)) :
    ∀ r, (r ∈ dfvn ∨ r ∈ gh) → r.dt.isSome = true →
      r ∈ cleanDf (dfvn ++ gh) := by
  intro r hr hsome
  have hmem : r ∈ dfvn ++ gh := List.mem_append.2 hr
  obtain ⟨s, t, hst⟩ := List.append_of_mem hmem
  have hfirst : ∀ x ∈ s, keyOf x ≠ keyOf r := by
    have hp2 := hst ▸ hp
    have := (List.pairwise_append.1 hp2).2.2
    intro x hx
    exact this x hx r (List.mem_cons_self _ _)
  rw [hst]
  exact cleanDf_mem_of_first hfirst hsome

theorem crawlAll_inv (g : Nat → Nat → FetchRes (List Row)) (y : Nat) :
    ∀ (rs : List String) (i : Nat) (st st2 : CrawlState) (out : CrawlOutcome)
      (gh : List Row),
      crawlAll g y rs i st = (st2, out, gh) →
      ((∀ r, (r ∈ st.dfvn ∨ r ∈ gh) → r.dt.isSome = true →
          ∃ r2 ∈ st2.dfvn, keyOf r2 = keyOf r)
        ∧ (out = .rateLimitHard → st2.disk = st2.dfvn ∨ st2.dfvn = [])) := by
  intro rs
  induction rs with
  | nil =>
    intro i st st2 out gh h
    simp only [crawlAll, Prod.mk.injEq] at h
    obtain ⟨h1, h2, h3⟩ := h
    subst h1; subst h2; subst h3
    refine ⟨fun r hr hsome => ?_, fun hc => nomatch hc⟩
    rcases hr with hr | hr
    · exact ⟨r, hr, rfl⟩
    · exact absurd hr (List.not_mem_nil _)
  | cons t ts ih =>
    intro i st st2 out gh h
    simp only [crawlAll] at h
    rcases crawlRegion_spec (g i) y t st with ⟨b, hcr, himp⟩ | ⟨gh1, b, hcr⟩
    · rw [hcr] at h
      cases b with
      | true =>
        simp only [if_pos rfl, if_true, Prod.mk.injEq] at h
        obtain ⟨h1, h2, h3⟩ := h
        subst h1; subst h2; subst h3
        have hd := himp rfl
        refine ⟨fun r hr hsome => ?_, fun _ => Or.inr hd⟩
        rcases hr with hr | hr
        · rw [hd] at hr
          exact absurd hr (List.not_mem_nil _)
        · exact absurd hr (List.not_mem_nil _)
      | false =>
        simp only [Bool.false_eq_true, if_false] at h
        generalize hrec : crawlAll g y ts (i + 1) st = rec2 at h
        obtain ⟨st2x, outx, gh2⟩ := rec2
        simp only [Prod.mk.injEq] at h
        obtain ⟨h1, h2, h3⟩ := h
        rw [← h1, ← h2, ← h3]
        simp only [List.nil_append]
        exact ih (i + 1) st st2x outx gh2 hrec
    · rw [hcr] at h
      cases b with
      | true =>
        simp only [if_pos rfl, if_true, Prod.mk.injEq] at h
        obtain ⟨h1, h2, h3⟩ := h
        subst h1; subst h2; subst h3
        refine ⟨fun r hr hsome => ?_, fun _ => Or.inl rfl⟩
        obtain ⟨r2, hr2, hk⟩ := cleanDf_key_covered (List.mem_append.2 hr) hsome
        exact ⟨r2, hr2, hk⟩
      | false =>
        simp only [Bool.false_eq_true, if_false] at h
        generalize hrec : crawlAll g y ts (i + 1)
          ⟨cleanDf (st.dfvn ++ gh1), cleanDf (st.dfvn ++ gh1)⟩ = rec2 at h
        obtain ⟨st2x, outx, gh2⟩ := rec2
        simp only [Prod.mk.injEq] at h
        obtain ⟨h1, h2, h3⟩ := h
        subst h1; subst h2; subst h3
        obtain ⟨ih1, ih2⟩ := ih (i + 1) _ st2x outx gh2 hrec
        refine ⟨fun r hr hsome => ?_, ih2⟩
        have hsplit : (r ∈ st.dfvn ∨ r ∈ gh1) ∨ r ∈ gh2 := by
          rcases hr with hr | hr
          · exact Or.inl (Or.inl hr)
          · rcases List.mem_append.1 hr with hr | hr
            · exact Or.inl (Or.inr hr)
            · exact Or.inr hr
        rcases hsplit with hr2 | hr2
        · obtain ⟨r2, hr2m, hk⟩ := cleanDf_key_covered (List.mem_append.2 hr2) hsome
          have hdt : r2.dt = r.dt := congrArg Prod.snd hk
          obtain ⟨r3, hr3, hk3⟩ := ih1 r2 (Or.inl hr2m) (by rw [hdt]; exact hsome)
          exact ⟨r3, hr3, hk3.trans hk⟩
        · exact ih1 r (Or.inr hr2) hsome

theorem crawlAll_rows (g : Nat → Nat → FetchRes (List Row)) (y : Nat) :
    ∀ (rs : List String) (i : Nat) (st st2 : CrawlState) (out : CrawlOutcome)
      (gh : List Row),
      crawlAll g y rs i st = (st2, out, gh) →
      (st.dfvn ++ gh).Pairwise (fun a b => keyOf a ≠ keyOf b) →
      ∀ r, (r ∈ st.dfvn ∨ r ∈ gh) → r.dt.isSome = true → r ∈ st2.dfvn := by
  intro rs
  induction rs with
  | nil =>
    intro i st st2 out gh h hp r hr hsome
    simp only [crawlAll, Prod.mk.injEq] at h
    obtain ⟨h1, h2, h3⟩ := h
    subst h1; subst h3
    rcases hr with hr | hr
    · exact hr
    · exact absurd hr (List.not_mem_nil _)
  | cons t ts ih =>
    intro i st st2 out gh h hp r hr hsome
    simp only [crawlAll] at h
    rcases crawlRegion_spec (g i) y t st with ⟨b, hcr, himp⟩ | ⟨gh1, b, hcr⟩
    · rw [hcr] at h
      cases b with
      | true =>
        simp only [if_pos rfl, if_true, Prod.mk.injEq] at h
        obtain ⟨h1, h2, h3⟩ := h
        have hd := himp rfl
        rcases hr with hr2 | hr2
        · rw [hd] at hr2
          exact absurd hr2 (List.not_mem_nil _)
        · rw [← h3] at hr2
          exact absurd hr2 (List.not_mem_nil _)
      | false =>
        simp only [Bool.false_eq_true, if_false] at h
        generalize hrec : crawlAll g y ts (i + 1) st = rec2 at h
        obtain ⟨st2x, outx, gh2⟩ := rec2
        simp only [Prod.mk.injEq] at h
        obtain ⟨h1, h2, h3⟩ := h
        rw [← h3] at hr hp
        rw [← h1]
        simp only [List.nil_append] at hr hp
        exact ih (i + 1) st st2x outx gh2 hrec hp r hr hsome
    · rw [hcr] at h
      cases b with
      | true =>
        simp only [if_pos rfl, if_true, Prod.mk.injEq] at h
        obtain ⟨h1, h2, h3⟩ := h
        rw [← h3] at hr hp
        rw [← h1]
        exact cleanDf_append_strong hp r hr hsome
      | false =>
        simp only [Bool.false_eq_true, if_false] at h
        generalize hrec : crawlAll g y ts (i + 1)
          ⟨cleanDf (st.dfvn ++ gh1), cleanDf (st.dfvn ++ gh1)⟩ = rec2 at h
        obtain ⟨st2x, outx, gh2⟩ := rec2
        simp only [Prod.mk.injEq] at h
        obtain ⟨h1, h2, h3⟩ := h
        rw [← h3] at hr hp
        rw [← h1]
        have hassoc : st.dfvn ++ (gh1 ++ gh2) = (st.dfvn ++ gh1) ++ gh2 :=
          (List.append_assoc _ _ _).symm
        have hp12 : (st.dfvn ++ gh1).Pairwise (fun a b => keyOf a ≠ keyOf b) :=
          List.Pairwise.sublist (List.sublist_append_left _ _) (hassoc ▸ hp)
        have hc : ∀ a, (a ∈ st.dfvn ∨ a ∈ gh1) → ∀ b ∈ gh2, keyOf a ≠ keyOf b := by
          intro a ha b hb
          have := (List.pairwise_append.1 (hassoc ▸ hp)).2.2
          exact this a (List.mem_append.2 ha) b hb
        have hpnext : (cleanDf (st.dfvn ++ gh1) ++ gh2).Pairwise
            (fun a b => keyOf a ≠ keyOf b) := by
          refine List.pairwise_append.2 ⟨cleanDf_pairwiseKeys _, ?_, ?_⟩
          · exact List.Pairwise.sublist (List.sublist_append_right _ _)
              (hassoc ▸ hp)
          · intro a ha b hb
            exact hc a (List.mem_append.1 (cleanDf_subset ha)) b hb
        have hnext : ∀ q, (q ∈ cleanDf (st.dfvn ++ gh1) ∨ q ∈ gh2) →
            q.dt.isSome = true → q ∈ st2x.dfvn :=
          fun q hq hqs => ih (i + 1) _ st2x outx gh2 hrec hpnext q hq hqs
        rcases hr with hr2 | hr2
        · refine hnext r (Or.inl ?_) hsome
          exact cleanDf_append_strong hp12 r (Or.inl hr2) hsome
        · rcases List.mem_append.1 hr2 with hr3 | hr3
          · refine hnext r (Or.inl ?_) hsome
            exact cleanDf_append_strong hp12 r (Or.inr hr3) hsome
          · exact hnext r (Or.inr hr3) hsome

theorem fetchLoop_soft_range {α β : Type} {parse : α → β} {oc : Nat → Att α}
    {jit : Nat → Nat} {base k s0 : Nat} {pay : α} :
    ∀ m s, (∀ n, s ≤ n → n < k → isRetryable (oc n) = true) →
      s ≤ k → k < s + m → oc k = .response s0 pay →
      ¬ (s0 = 200 ∨ s0 = 429 ∨ s0 = 500 ∨ s0 = 502 ∨ s0 = 503 ∨ s0 = 504) →
      (fetchLoop parse oc jit base (List.range' s m)).1 = .noData := by
  intro m
  induction m with
  | zero => intro s _ h1 h2 _ _; omega
  | succ m ih =>
    intro s hprev h1 h2 hoc hs
    rw [List.range'_succ]
    by_cases hsk : s = k
    · subst hsk
      have h200 : ¬ s0 = 200 := fun hc => hs (Or.inl hc)
      have h429 : ¬ s0 = 429 := fun hc => hs (Or.inr (Or.inl hc))
      have h5xx : ¬ (s0 = 500 ∨ s0 = 502 ∨ s0 = 503 ∨ s0 = 504) := by
        intro hc
        exact hs (Or.inr (Or.inr hc))
      simp [fetchLoop, hoc, h200, h429, h5xx]
    · rw [fetchLoop_retryable_step (hprev s (Nat.le_refl s) (by omega))]
      exact ih (s + 1) (fun n hn1 hn2 => hprev n (by omega) hn2)
        (by omega) (by omega) hoc hs

/-- C3: an HTTP 429 on attempt `n` sleeps `60 * n + jit n` (jitter drawn
from `randint(0, 60)`) before attempt `n + 1`; in particular, on the
outcome sequence [429, 429, 200] for attempts 1-3 the fetch performs
exactly two sleeps — `60 + jit 1 ∈ [60, 120]` and `120 + jit 2 ∈ [120,
180]` — and then returns the parsed frame of attempt 3. -/
theorem backoff_scenario_429_429_200 {α β : Type} (parse : α → β)
    (oc : Nat → Att α) (jit : Nat → Nat) (p1 p2 p3 : α)
    (h1 : oc 1 = .response 429 p1) (h2 : oc 2 = .response 429 p2)
    (h3 : oc 3 = .response 200 p3) (hj : ∀ n, jit n ≤ 60) :
    (∀ n rest pay, oc n = .response 429 pay →
      fetchLoop parse oc jit base_wait_429 (n :: rest) =
        ((fetchLoop parse oc jit base_wait_429 rest).1,
          (60 * n + jit n) :: (fetchLoop parse oc jit base_wait_429 rest).2))
    ∧ fetch_block parse oc jit =
        (.success (parse p3), [60 * 1 + jit 1, 60 * 2 + jit 2])
    ∧ 60 ≤ 60 * 1 + jit 1 ∧ 60 * 1 + jit 1 ≤ 120
    ∧ 120 ≤ 60 * 2 + jit 2 ∧ 60 * 2 + jit 2 ≤ 180 := by
  refine ⟨?_, ?_, ?_, ?_, ?_, ?_⟩
  · intro n rest pay hn
    simp [fetchLoop, hn, base_wait_429]
  · show fetchLoop parse oc jit base_wait_429 (List.range' 1 max_attempts) =
      (.success (parse p3), [60 * 1 + jit 1, 60 * 2 + jit 2])
    have hr : List.range' 1 max_attempts = [1, 2, 3, 4, 5, 6] := rfl
    rw [hr]
    simp [fetchLoop, h1, h2, h3, base_wait_429]
  · omega
  · have := hj 1; omega
  · omega
  · have := hj 2; omega

/-- Witness for C3 at a concrete oracle: two sleeps with jitter 5 and the
payload of attempt 3. -/
theorem backoff_scenario_429_429_200_witness :
    fetch_block id ocBackoff jitFive =
      (.success (id 7), [60 * 1 + jitFive 1, 60 * 2 + jitFive 2])
    ∧ 60 ≤ 60 * 1 + jitFive 1 ∧ 60 * 1 + jitFive 1 ≤ 120
    ∧ 120 ≤ 60 * 2 + jitFive 2 ∧ 60 * 2 + jitFive 2 ≤ 180 :=
  (backoff_scenario_429_429_200 id ocBackoff jitFive 0 0 7 rfl rfl rfl
    (fun _ => by norm_num [jitFive])).2

/-- C4: the attempt loop classifies outcomes asymmetrically. A status
outside {200, 429, 500, 502, 503, 504} observed at any attempt `k ≤ 6`
(after retryable outcomes only) makes the fetch return `None` — the window
is skipped, not retried — whereas six retryable outcomes (429/5xx/network
failure) in a row exhaust `max_attempts = 6` and raise `RATE_LIMIT_HARD`. -/
theorem fetch_classification_asymmetry {α β : Type} (parse : α → β)
    (oc : Nat → Att α) (jit : Nat → Nat) :
    (∀ k s pay, 1 ≤ k → k ≤ max_attempts →
      (∀ n, 1 ≤ n → n < k → isRetryable (oc n) = true) →
      oc k = .response s pay →
      ¬ (s = 200 ∨ s = 429 ∨ s = 500 ∨ s = 502 ∨ s = 503 ∨ s = 504) →
      (fetch_block parse oc jit).1 = .noData)
    ∧ ((∀ n, 1 ≤ n → n ≤ max_attempts → isRetryable (oc n) = true) →
      (fetch_block parse oc jit).1 = .hardStop) := by
  have h6 : max_attempts = 6 := rfl
  constructor
  · intro k s pay hk1 hk6 hprev hoc hs
    show (fetchLoop parse oc jit base_wait_429 (List.range' 1 max_attempts)).1
      = .noData
    rw [h6] at hk6 ⊢
    exact fetchLoop_soft_range 6 1 (fun n hn1 hn2 => hprev n hn1 hn2) hk1
      (by omega) hoc hs
  · intro hret
    show (fetchLoop parse oc jit base_wait_429 (List.range' 1 max_attempts)).1
      = .hardStop
    refine fetchLoop_all_retryable ?_
    intro n hn
    have hb := List.mem_range'_1.1 hn
    exact hret n hb.1 (by omega)

/-- Witness for C4: a 403 on attempt 1 yields `None`; constant 429 yields
the hard stop. -/
theorem fetch_classification_asymmetry_witness :
    (fetch_block (@id Nat) ocSoft jitFive).1 = .noData
    ∧ (fetch_block (@id Nat) ocHard jitFive).1 = .hardStop :=
  ⟨(fetch_classification_asymmetry id ocSoft jitFive).1 1 403 0
      (by decide) (by decide) (fun n hn1 hn2 => absurd hn2 (by omega))
      rfl (by decide),
    (fetch_classification_asymmetry id ocHard jitFive).2
      (fun n h1 h2 => rfl)⟩

/-- C6: every window `(s, e)` issued by the window loop satisfies
`start_all ≤ s` (the epoch bound; dates are `Nat` days from the epoch),
`start ≤ s`, `s ≤ e`, `e ≤ y` — i.e. the end is strictly before today
`y + 1` — and the window spans at most 366 days inclusive
(`e - s ≤ 365`). -/
theorem window_bounding {start y s e : Nat} (h : (s, e) ∈ windows start y) :
    start_all ≤ s ∧ start ≤ s ∧ s ≤ e ∧ e ≤ y ∧ e < y + 1
    ∧ e - s ≤ 365 ∧ e + 1 - s ≤ 366 := by
  have := windows_mem h
  constructor
  · exact Nat.zero_le _
  · omega

/-- Witness for C6 at the first window of a 2-window crawl. -/
theorem window_bounding_witness :
    start_all ≤ 5 ∧ 5 ≤ 5 ∧ 5 ≤ 370 ∧ 370 ≤ 400 ∧ 370 < 400 + 1
    ∧ 370 - 5 ≤ 365 ∧ 370 + 1 - 5 ≤ 366 :=
  @window_bounding 5 400 5 370 (by decide)

/-- C10: within one region the issued windows are contiguous — each window
after the first starts exactly one day after the previous window's end,
the first (when any) starts at the resume date — their union covers
exactly the closed range [start, y] with no date omitted, and the windows
are pairwise disjoint, so no date is requested twice. -/
theorem windows_contiguous_cover (start y : Nat) :
    (windows start y).Chain' (fun w1 w2 => w2.1 = w1.2 + 1)
    ∧ (start ≤ y → (windows start y).head? = some (start, min (start + 365) y))
    ∧ (∀ d, (∃ w ∈ windows start y, w.1 ≤ d ∧ d ≤ w.2) ↔ (start ≤ d ∧ d ≤ y))
    ∧ (windows start y).Pairwise (fun w1 w2 => w1.2 < w2.1) :=
  ⟨windows_chain start y, fun h => windows_head h,
    windows_cover start y, windows_disjoint start y⟩

/-- C5: the resume date for a region is one day after the calendar date of
the latest parseable timestamp present for it (`start_all` when none), and
whenever the resume date passes yesterday the region is skipped outright:
the window list is empty, so no fetch is issued, and the controller state
(in-memory frame and persisted artifact) is returned unchanged. -/
theorem resume_date_and_skip (dfvn disk : List Row) (tinh : String) (y : Nat)
    (f : Nat → FetchRes (List Row)) :
    (regionStamps dfvn tinh ≠ [] →
      resumeStart dfvn tinh = dateOfTs (natMax (regionStamps dfvn tinh)) + 1
      ∧ natMax (regionStamps dfvn tinh) ∈ regionStamps dfvn tinh
      ∧ ∀ x ∈ regionStamps dfvn tinh, x ≤ natMax (regionStamps dfvn tinh))
    ∧ (regionStamps dfvn tinh = [] → resumeStart dfvn tinh = start_all)
    ∧ (resumeStart dfvn tinh > y →
      crawlRegion f y tinh ⟨dfvn, disk⟩ = (⟨dfvn, disk⟩, false, [])
      ∧ windows (resumeStart dfvn tinh) y = []) := by
  refine ⟨fun hne => ⟨resumeStart_of_stamps hne, natMax_mem hne,
    fun x hx => le_natMax hx⟩, resumeStart_of_no_stamps, fun hgt => ⟨?_, ?_⟩⟩
  · rw [crawlRegion, if_pos hgt]
  · exact windows_nil hgt

/-- Witness for C5: one region-A row with stamp 50 (day 2) gives resume
day 3; with yesterday = 2 the region is skipped and no window is built. -/
theorem resume_date_and_skip_witness :
    resumeStart dfOld "A" = dateOfTs (natMax (regionStamps dfOld "A")) + 1
    ∧ crawlRegion fNone 0 "A" ⟨dfOld, []⟩ = (⟨dfOld, []⟩, false, [])
    ∧ windows (resumeStart dfOld "A") 0 = [] :=
  ⟨((resume_date_and_skip dfOld [] "A" 0 fNone).1 (by decide)).1,
    ((resume_date_and_skip dfOld [] "A" 0 fNone).2.2 (by decide)).1,
    ((resume_date_and_skip dfOld [] "A" 0 fNone).2.2 (by decide)).2⟩

/-- C7: after every merge-and-clean the frame has pairwise distinct
(region, timestamp) keys — and every parseable input key is still
represented — every surviving row has a parseable timestamp, the rows are
sorted by (region, timestamp) ascending, and the reordered column list is
the region identifier first, then the present code columns, then the
remaining (non-special, non-fixed) columns, then the timestamp last. -/
theorem merge_invariants (rows : List Row) (cols : List String) :
    (cleanDf rows).Pairwise (fun a b => keyOf a ≠ keyOf b)
    ∧ (∀ r ∈ cleanDf rows, r.dt.isSome = true)
    ∧ (∀ r ∈ rows, r.dt.isSome = true →
        ∃ r2 ∈ cleanDf rows, keyOf r2 = keyOf r)
    ∧ (cleanDf rows).Sorted RowLe
    ∧ ∃ mid, reorderCols cols =
        ["Tinh_thanh"] ++ special_cols.filter (fun sc => decide (sc ∈ cols))
          ++ mid ++ ["Datetime"]
      ∧ ∀ c ∈ mid, c ≠ "Tinh_thanh" ∧ c ≠ "Datetime" ∧ c ∉ special_cols
        ∧ c ∈ cols := by
  refine ⟨cleanDf_pairwiseKeys rows, fun r hr => cleanDf_isSome hr,
    fun r hr hsome => cleanDf_key_covered hr hsome, cleanDf_sorted rows,
    cols.filter (fun c =>
      !(c == "Tinh_thanh" || c == "Datetime" || decide (c ∈ special_cols))),
    ?_, ?_⟩
  · rfl
  · intro c hc
    have h1 := (List.mem_filter.1 hc).1
    have h2 := (List.mem_filter.1 hc).2
    simp only [Bool.not_eq_eq_eq_not, Bool.not_true, Bool.or_eq_false_iff,
      beq_eq_false_iff_ne, ne_eq, decide_eq_false_iff_not] at h2
    exact ⟨h2.1.1, h2.1.2, h2.2, h1⟩

/-- C8: if the frame already holds region data whose latest stamp falls on
day D, a fresh run resumes at D + 1 and its windows cover exactly
[D + 1, yesterday]; and merging any newly fetched rows never alters an
existing row — for any key present on both sides, the existing row is the
one retained (pandas keeps the first occurrence, and the existing frame is
concatenated first). -/
theorem idempotent_resume (dfvn newRows : List Row) (tinh : String)
    (y D : Nat) (hkeys : dfvn.Pairwise (fun a b => keyOf a ≠ keyOf b))
    (hne : regionStamps dfvn tinh ≠ [])
    (hD : dateOfTs (natMax (regionStamps dfvn tinh)) = D) :
    resumeStart dfvn tinh = D + 1
    ∧ (∀ d, (∃ w ∈ windows (D + 1) y, w.1 ≤ d ∧ d ≤ w.2) ↔
        (D + 1 ≤ d ∧ d ≤ y))
    ∧ (∀ r ∈ dfvn, r.dt.isSome = true →
        r ∈ cleanDf (dfvn ++ newRows)
        ∧ ∀ r2 ∈ cleanDf (dfvn ++ newRows), keyOf r2 = keyOf r → r2 = r) := by
  refine ⟨by rw [resumeStart_of_stamps hne, hD], windows_cover _ y, ?_⟩
  intro r hr hsome
  obtain ⟨s, t, hst⟩ := List.append_of_mem hr
  have hfirst : ∀ x ∈ s, keyOf x ≠ keyOf r := by
    have hp2 := hst ▸ hkeys
    have := (List.pairwise_append.1 hp2).2.2
    intro x hx
    exact this x hx r (List.mem_cons_self _ _)
  have hdec : dfvn ++ newRows = s ++ r :: (t ++ newRows) := by
    rw [hst, List.append_assoc, List.cons_append]
  have hmem : r ∈ cleanDf (dfvn ++ newRows) := by
    rw [hdec]
    exact cleanDf_mem_of_first hfirst hsome
  exact ⟨hmem, fun r2 hr2 hk => cleanDf_unique hmem hr2 hk⟩

/-- Witness for C8: region A's stamp 24 lies on day 1, the resume date is
day 2, and the overlapping old row (cells tag 1) survives the merge while
the overlapping new row (cells tag 2) is the one dropped. -/
theorem idempotent_resume_witness :
    resumeStart dfOld "A" = 1 + 1
    ∧ (⟨"A", some 24, 1⟩ : Row) ∈ cleanDf (dfOld ++ dfNew) :=
  ⟨(idempotent_resume dfOld dfNew "A" 0 1 (by decide) (by decide)
      (by decide)).1,
    ((idempotent_resume dfOld dfNew "A" 0 1 (by decide) (by decide)
      (by decide)).2.2 ⟨"A", some 24, 1⟩ (by decide) (by decide)).1⟩

/-- C9: reshaping left-merges the hourly rows to the daily rows on the
calendar date and drops the join key afterward: for an hourly series of 24
rows on one date and a daily series with a single row for that date, the
join yields exactly 24 rows, each inheriting that date's daily aggregate
values, and no `Date` column survives the reshape's column pipeline. -/
theorem reshape_join_scenario (hs : List HRow) (d v : Nat)
    (hd : ∀ h ∈ hs, h.date = some d) (hlen : hs.length = 24) :
    reshapeJoin hs [⟨some d, v⟩] = hs.map (fun h => (h.hvals, some v))
    ∧ (reshapeJoin hs [⟨some d, v⟩]).length = 24
    ∧ (∀ p ∈ reshapeJoin hs [⟨some d, v⟩], p.2 = some v)
    ∧ (∀ hcols dcols, "Date" ∉ reshapeCols hcols dcols) := by
  have key : ∀ l : List HRow, (∀ h ∈ l, h.date = some d) →
      leftMergeOnDate l [⟨some d, v⟩] = l.map (fun h => (h, some v)) := by
    intro l
    induction l with
    | nil => intro _; rfl
    | cons h0 tl ih =>
      intro hdl
      have hd0 : h0.date = some d := hdl h0 (List.mem_cons_self _ _)
      have htl := ih (fun h hm => hdl h (List.mem_cons_of_mem _ hm))
      simp only [leftMergeOnDate] at htl ⊢
      rw [List.flatMap_cons, htl, List.map_cons]
      rw [hd0]
      simp
  have hmain : reshapeJoin hs [⟨some d, v⟩] =
      hs.map (fun h => (h.hvals, some v)) := by
    rw [reshapeJoin, key hs hd, List.map_map]
    rfl
  refine ⟨hmain, by rw [hmain, List.length_map, hlen], ?_, ?_⟩
  · intro p hp
    rw [hmain] at hp
    obtain ⟨h, _, hph⟩ := List.mem_map.1 hp
    rw [← hph]
  · intro hcols dcols hmem
    simp only [reshapeCols, reorderCols, List.append_assoc, List.mem_append,
      List.mem_cons, List.mem_singleton, List.not_mem_nil, or_false,
      List.mem_filter] at hmem
    rcases hmem with (h | ⟨hsp, _⟩) | (⟨hdc, _⟩ | h)
    · exact absurd h (by decide)
    · exact absurd hsp (by decide)
    · have hb := (List.mem_filter.1 hdc).2
      simp at hb
    · exact absurd h (by decide)

/-- Witness for C9 on 24 concrete hourly rows of day 5 and a daily value
of 7. -/
theorem reshape_join_scenario_witness :
    reshapeJoin hs24 [⟨some 5, 7⟩] = hs24.map (fun h => (h.hvals, some 7))
    ∧ (reshapeJoin hs24 [⟨some 5, 7⟩]).length = 24 :=
  ⟨(reshape_join_scenario hs24 5 7 (by decide) (by decide)).1,
    (reshape_join_scenario hs24 5 7 (by decide) (by decide)).2.1⟩

/-- C1: if the crawl aborts with `RATE_LIMIT_HARD`, then the artifact
persisted on abort still contains — key for key — every parseable row that
was loaded at startup and every row of every successfully fetched block of
the run (prior fully-completed regions and the aborting region's
already-collected windows alike); and when all those rows carry pairwise
distinct (region, timestamp) keys — as disjoint fetch windows guarantee —
the very rows themselves survive into the persisted artifact. -/
theorem hardstop_no_loss (g : Nat → Nat → FetchRes (List Row)) (y : Nat)
    (rs : List String) (st0 st2 : CrawlState) (gh : List Row)
    (h : crawlAll g y rs 0 st0 = (st2, .rateLimitHard, gh)) :
    (∀ r, (r ∈ st0.dfvn ∨ r ∈ gh) → r.dt.isSome = true →
      ∃ r2 ∈ st2.disk, keyOf r2 = keyOf r)
    ∧ ((st0.dfvn ++ gh).Pairwise (fun a b => keyOf a ≠ keyOf b) →
      ∀ r, (r ∈ st0.dfvn ∨ r ∈ gh) → r.dt.isSome = true → r ∈ st2.disk) := by
  obtain ⟨inv1, inv2⟩ := crawlAll_inv g y rs 0 st0 st2 .rateLimitHard gh h
  have hdisk := inv2 rfl
  constructor
  · intro r hr hsome
    obtain ⟨r2, hr2, hk⟩ := inv1 r hr hsome
    rcases hdisk with hd | hd
    · exact ⟨r2, by rw [hd]; exact hr2, hk⟩
    · rw [hd] at hr2
      exact absurd hr2 (List.not_mem_nil _)
  · intro hp r hr hsome
    have hmem := crawlAll_rows g y rs 0 st0 st2 .rateLimitHard gh h hp r hr hsome
    rcases hdisk with hd | hd
    · rw [hd]
      exact hmem
    · rw [hd] at hmem
      exact absurd hmem (List.not_mem_nil _)

/-- Witness for C1: region A's fetched row is present in the artifact
persisted when region B hard-stops. -/
theorem hardstop_no_loss_witness :
    rowA ∈ (CrawlState.mk [rowA] [rowA]).disk :=
  (hardstop_no_loss gOne 1 ["A", "B"] ⟨[], []⟩ ⟨[rowA], [rowA]⟩ [rowA]
    (by decide)).2 (by decide) rowA (Or.inr (by decide)) (by decide)

/-- C2 counterexample: a run whose only region hard-stops ends with the
`RATE_LIMIT_HARD` outcome, yet the process exit status is 0, not a
distinguished non-zero status — the top-level `except RuntimeError`
swallows the exception and falls off the end of the script. -/
theorem rate_limit_exit_code_counterexample :
    (crawlAll gStop 0 ["A"] 0 ⟨[], []⟩).2.1 = CrawlOutcome.rateLimitHard
    ∧ scriptExitCode (crawlAll gStop 0 ["A"] 0 ⟨[], []⟩).2.1 = 0 := by
  decide

/-- C2 amended: when the circuit breaker trips, the process persists the
progress gathered so far and prints the distinguished "rerun later"
banner, but terminates with exit status 0 — the same success status as
normal completion; the two outcomes are distinguished only by the printed
message. -/
theorem exit_behavior_amended (g : Nat → Nat → FetchRes (List Row)) (y : Nat)
    (rs : List String) (st0 st2 : CrawlState) (gh : List Row)
    (h : crawlAll g y rs 0 st0 = (st2, .rateLimitHard, gh)) :
    (∀ r, (r ∈ st0.dfvn ∨ r ∈ gh) → r.dt.isSome = true →
      ∃ r2 ∈ st2.disk, keyOf r2 = keyOf r)
    ∧ scriptFinalMsg .rateLimitHard = .rerunLater
    ∧ scriptExitCode .rateLimitHard = 0
    ∧ scriptFinalMsg .completed = .completedOk
    ∧ scriptExitCode .completed = 0 := by
  obtain ⟨inv1, inv2⟩ := crawlAll_inv g y rs 0 st0 st2 .rateLimitHard gh h
  have hdisk := inv2 rfl
  refine ⟨?_, rfl, rfl, rfl, rfl⟩
  intro r hr hsome
  obtain ⟨r2, hr2, hk⟩ := inv1 r hr hsome
  rcases hdisk with hd | hd
  · exact ⟨r2, by rw [hd]; exact hr2, hk⟩
  · rw [hd] at hr2
    exact absurd hr2 (List.not_mem_nil _)

/-- Witness for the amended C2 on a concrete hard-stopping run. -/
theorem exit_behavior_amended_witness :
    scriptFinalMsg .rateLimitHard = .rerunLater
    ∧ scriptExitCode .rateLimitHard = 0 :=
  ⟨(exit_behavior_amended gStop 0 ["A"] ⟨[], []⟩ ⟨[], []⟩ []
      (by decide)).2.1,
    (exit_behavior_amended gStop 0 ["A"] ⟨[], []⟩ ⟨[], []⟩ []
      (by decide)).2.2.1⟩
